import Mathlib

/-!
Verification of the Shapley value engine of the shapley-hri-attribution
repository (source file: the Shapley computation module, together with the
core type declarations).

The embedding is shallow: JavaScript numbers are modelled as exact rationals
(the engine only adds, multiplies and divides small factorials and
value-function outputs), JavaScript `Set` coalitions are modelled as
`Finset`, the `Record<ComponentId, number>` of per-component values is
modelled as a total function `ComponentId → ℚ`, and the generator-based
power-set enumeration is modelled as the list of subsets produced by the
same bitmask loop.
-/

namespace ShapleyHRI

/-- The four togglable intervention components, exactly the constructors of
the `ComponentId` union type in the core type declarations. -/
inductive ComponentId : Type where
  | robotEngagement
  | adaptiveDifficulty
  | caregiverInvolvement
  | gameScaffolding
  deriving DecidableEq, Repr, Fintype

/-- A coalition is a subset of components (a JavaScript `Set` in the source,
identified up to membership as the data model requires). -/
abbrev Coalition : Type := Finset ComponentId

/-- Value function type: maps a coalition to expected learning gain. -/
abbrev ValueFunction : Type := Coalition → ℚ

/-- One iteration of the bitmask loop inside `powerSet`: the subset of
`set` selected by `mask`, keeping the elements whose index bit is set, in
index order (`for (let i = 0; i < n; i++) if (mask & (1 << i)) subset.push(set[i])`). -/
def maskSubset {α : Type _} (set : List α) (mask : ℕ) : List α :=
  ((List.range set.length).filter (fun i => mask.testBit i)).filterMap
    (fun i => set[i]?)

/-- `powerSet` generates all subsets of the given list by counting a bitmask
from `0` to `2^n - 1`, yielding one subset per mask value. -/
def powerSet {α : Type _} (set : List α) : List (List α) :=
  (List.range (2 ^ set.length)).map (maskSubset set)

/-- `factorial` from the source (`if (n <= 1) return 1; return n * factorial (n-1)`;
the memoization cache is a pure optimization and is not modelled). -/
def factorial : ℕ → ℕ
  | 0 => 1
  | 1 => 1
  | n + 2 => (n + 2) * factorial (n + 1)

/-- Compute the Shapley value for a single component: iterate over all
subsets of the other components, accumulating
`weight(|S|, n) * (v(S ∪ {i}) - v(S))` with
`weight(s, n) = s! * (n - s - 1)! / n!`. -/
def computeShapleyForComponent (component : ComponentId)
    (allComponents : List ComponentId) (valueFunction : ValueFunction) : ℚ :=
  let n := allComponents.length
  let othersWithoutComponent := allComponents.filter (fun c => c ≠ component)
  ((powerSet othersWithoutComponent).map (fun subset =>
    let s := subset.length
    let weight : ℚ := (factorial s * factorial (n - s - 1) : ℕ) / (factorial n : ℕ)
    let coalitionWithout : Coalition := subset.toFinset
    let coalitionWith : Coalition := insert component subset.toFinset
    weight * (valueFunction coalitionWith - valueFunction coalitionWithout))).sum

/-- Result of the full Shapley computation: per-component values (a record
with one entry per `ComponentId`), the grand-coalition total, and the
interaction value. -/
structure ShapleyResult : Type where
  values : ComponentId → ℚ
  totalValue : ℚ
  interactionValue : ℚ

/-- Compute Shapley values for all components: start from an all-zero record,
overwrite the entry of each active component with its Shapley value, and
aggregate `totalValue = v(grandCoalition)` and
`interactionValue = totalValue - Σ v({component})`. -/
def computeShapleyValues (activeComponents : List ComponentId)
    (valueFunction : ValueFunction) : ShapleyResult :=
  let initialValues : ComponentId → ℚ := fun _ => 0
  let values := activeComponents.foldl
    (fun acc component =>
      Function.update acc component
        (computeShapleyForComponent component activeComponents valueFunction))
    initialValues
  let grandCoalition : Coalition := activeComponents.toFinset
  let totalValue := valueFunction grandCoalition
  let sumOfIndividualEffects := activeComponents.foldl
    (fun sum comp => sum + valueFunction {comp}) 0
  let interactionValue := totalValue - sumOfIndividualEffects
  { values := values, totalValue := totalValue, interactionValue := interactionValue }

/-- Verify the efficiency axiom: sum the per-component values of the record
(`Object.values(result.values)` walks all four entries) and compare with
`totalValue` under the strict absolute tolerance `1e-10` of the source. -/
def verifyEfficiencyAxiom (result : ShapleyResult) : Bool :=
  let sumOfShapley : ℚ := ∑ c : ComponentId, result.values c
  decide (|sumOfShapley - result.totalValue| < (1e-10 : ℚ))

/-- Instrumented copy of `computeShapleyForComponent` that additionally logs,
in evaluation order, every coalition at which `valueFunction` is invoked
(the source evaluates `valueFunction(coalitionWith)` then
`valueFunction(coalitionWithout)` once per enumerated subset). -/
def computeShapleyForComponentTrace (component : ComponentId)
    (allComponents : List ComponentId) (valueFunction : ValueFunction) :
    ℚ × List Coalition :=
  let n := allComponents.length
  let othersWithoutComponent := allComponents.filter (fun c => c ≠ component)
  (powerSet othersWithoutComponent).foldl
    (fun acc subset =>
      let s := subset.length
      let weight : ℚ := (factorial s * factorial (n - s - 1) : ℕ) / (factorial n : ℕ)
      let coalitionWithout : Coalition := subset.toFinset
      let coalitionWith : Coalition := insert component subset.toFinset
      (acc.1 + weight * (valueFunction coalitionWith - valueFunction coalitionWithout),
        acc.2 ++ [coalitionWith, coalitionWithout]))
    (0, [])

/-! ### Theory of the bitmask power-set enumeration -/

theorem powerSet_nil {α : Type _} : powerSet ([] : List α) = [[]] := rfl

theorem maskSubset_cons {α : Type _} (a : α) (l : List α) (mask : ℕ) :
    maskSubset (a :: l) mask =
      (if mask.testBit 0 then [a] else []) ++ maskSubset l (mask / 2) := by
  have hps : ((fun i => mask.testBit i) ∘ Nat.succ) = fun i => (mask / 2).testBit i := by
    funext i
    simp [Function.comp, Nat.testBit_succ]
  have hget : ((fun i => (a :: l)[i]?) ∘ Nat.succ) = fun i => l[i]? := by
    funext i
    simp
  simp only [maskSubset, List.length_cons, List.range_succ_eq_map, List.filter_cons,
    List.filter_map, hps]
  cases h : mask.testBit 0 <;>
    simp [List.filterMap_cons, List.filterMap_map, hget]

/-- Auxiliary: a list of maps flat-mapped equals the flat map of the composite. -/
theorem flatMap_of_map {α β γ : Type _} (l : List α) (f : β → List γ) (g : α → β) :
    (l.map g).flatMap f = l.flatMap (fun x => f (g x)) := by
  induction l with
  | nil => rfl
  | cons a l ih => simp [ih]

/-- Counting a bitmask up to `2 * m` visits, for each `q < m`, the even mask
`2 * q` and then the odd mask `2 * q + 1`. -/
theorem range_two_mul_eq_flatMap (m : ℕ) :
    List.range (2 * m) = (List.range m).flatMap (fun q => [2 * q, 2 * q + 1]) := by
  induction m with
  | zero => rfl
  | succ m ih =>
      have h2 : 2 * (m + 1) = (2 * m) + 1 + 1 := by ring
      rw [h2, List.range_succ, List.range_succ, ih, List.range_succ,
        List.flatMap_append]
      simp

/-- Structural recurrence of the bitmask enumeration: prepending an element
interleaves each previously enumerated subset with its extension by the new
element (bit `0` of the mask governs the new head). -/
theorem powerSet_cons {α : Type _} (a : α) (l : List α) :
    powerSet (a :: l) = (powerSet l).flatMap (fun s => [s, a :: s]) := by
  have key : ∀ q : ℕ,
      [maskSubset (a :: l) (2 * q), maskSubset (a :: l) (2 * q + 1)] =
        [maskSubset l q, a :: maskSubset l q] := by
    intro q
    have h0 : (2 * q).testBit 0 = false := by
      rw [Nat.testBit_zero]
      simp only [decide_eq_false_iff_not]
      omega
    have h1 : (2 * q + 1).testBit 0 = true := by
      rw [Nat.testBit_zero]
      simp only [decide_eq_true_eq]
      omega
    have h2 : 2 * q / 2 = q := by omega
    have h3 : (2 * q + 1) / 2 = q := by omega
    simp [maskSubset_cons, h0, h1, h2, h3]
  have hlen : 2 ^ (a :: l).length = 2 * 2 ^ l.length := by
    simp [List.length_cons, pow_succ, mul_comm]
  calc (List.range (2 ^ (a :: l).length)).map (maskSubset (a :: l))
      = ((List.range (2 ^ l.length)).flatMap (fun q => [2 * q, 2 * q + 1])).map
          (maskSubset (a :: l)) := by
        rw [hlen, range_two_mul_eq_flatMap]
    _ = (List.range (2 ^ l.length)).flatMap (fun q =>
          [maskSubset (a :: l) (2 * q), maskSubset (a :: l) (2 * q + 1)]) := by
        rw [List.map_flatMap]
        rfl
    _ = (List.range (2 ^ l.length)).flatMap (fun q =>
          [maskSubset l q, a :: maskSubset l q]) := by
        simp only [key]
    _ = ((List.range (2 ^ l.length)).map (maskSubset l)).flatMap
          (fun s => [s, a :: s]) := by
        rw [flatMap_of_map]

/-- The enumeration yields exactly `2 ^ k` subsets for an input of length `k`. -/
theorem powerSet_length {α : Type _} (l : List α) :
    (powerSet l).length = 2 ^ l.length := by
  simp [powerSet]

/-- Every element of an enumerated subset is an element of the input list. -/
theorem mem_of_mem_of_mem_powerSet {α : Type _} {l s : List α}
    (hs : s ∈ powerSet l) : ∀ x ∈ s, x ∈ l := by
  simp only [powerSet, List.mem_map] at hs
  obtain ⟨mask, _, rfl⟩ := hs
  intro x hx
  simp only [maskSubset, List.mem_filterMap, List.mem_filter] at hx
  obtain ⟨i, _, hget⟩ := hx
  exact List.mem_iff_getElem?.mpr ⟨i, hget⟩

/-- For a duplicate-free input, every enumerated subset is duplicate-free. -/
theorem nodup_of_mem_powerSet {α : Type _} :
    ∀ {l : List α}, l.Nodup → ∀ s ∈ powerSet l, s.Nodup := by
  intro l
  induction l with
  | nil =>
      intro _ s hs
      rw [powerSet_nil] at hs
      simp only [List.mem_singleton] at hs
      simp [hs]
  | cons a l ih =>
      intro hl s hs
      obtain ⟨hal, hl2⟩ := List.nodup_cons.mp hl
      rw [powerSet_cons] at hs
      simp only [List.mem_flatMap, List.mem_cons, List.mem_singleton,
        List.not_mem_nil, or_false] at hs
      obtain ⟨t, ht, hst⟩ := hs
      rcases hst with rfl | rfl
      · exact ih hl2 s ht
      · refine List.nodup_cons.mpr ⟨fun hmem => hal ?_, ih hl2 t ht⟩
        exact mem_of_mem_of_mem_powerSet ht a hmem

/-- For a duplicate-free input, distinct enumerated subsets have distinct
membership: the list of subsets-as-finsets has no duplicates. -/
theorem nodup_powerSet_map_toFinset {α : Type _} [DecidableEq α] :
    ∀ {l : List α}, l.Nodup → ((powerSet l).map List.toFinset).Nodup := by
  intro l
  induction l with
  | nil =>
      intro _
      rw [powerSet_nil]
      simp
  | cons a l ih =>
      intro hl
      obtain ⟨hal, hl2⟩ := List.nodup_cons.mp hl
      have hnd := ih hl2
      have hnotin : ∀ s ∈ powerSet l, a ∉ s := fun s hs hmem =>
        hal (mem_of_mem_of_mem_powerSet hs a hmem)
      rw [powerSet_cons, List.map_flatMap, List.nodup_flatMap]
      constructor
      · intro s hs
        have ha : a ∉ s.toFinset := fun hmem =>
          hnotin s hs (List.mem_toFinset.mp hmem)
        simp only [List.map_cons, List.map_nil, List.toFinset_cons]
        refine List.nodup_cons.mpr ⟨?_, List.nodup_singleton _⟩
        intro hmem
        simp only [List.mem_singleton] at hmem
        exact ha (hmem ▸ Finset.mem_insert_self a s.toFinset)
      · have hpw : (powerSet l).Pairwise (fun s t => s.toFinset ≠ t.toFinset) :=
          List.pairwise_map.mp hnd
        refine hpw.imp_of_mem ?_
        intro s t hs ht hne
        have has : a ∉ s.toFinset := fun hmem =>
          hnotin s hs (List.mem_toFinset.mp hmem)
        have hat : a ∉ t.toFinset := fun hmem =>
          hnotin t ht (List.mem_toFinset.mp hmem)
        intro x hxs hxt
        simp only [Function.onFun, List.map_cons, List.map_nil, List.toFinset_cons,
          List.mem_cons, List.mem_singleton, List.not_mem_nil, or_false] at hxs hxt
        rcases hxs with rfl | rfl
        · rcases hxt with heq | heq
          · exact hne heq
          · refine has ?_
            rw [heq]
            exact Finset.mem_insert_self a t.toFinset
        · rcases hxt with heq | heq
          · refine hat ?_
            rw [← heq]
            exact Finset.mem_insert_self a s.toFinset
          · refine hne ?_
            have := congrArg (fun u => Finset.erase u a) heq
            simpa [Finset.erase_insert has, Finset.erase_insert hat] using this

/-- Completeness of the enumeration: every subset of a duplicate-free input
appears among the enumerated subsets. -/
theorem powerSet_complete {α : Type _} [DecidableEq α] :
    ∀ {l : List α}, l.Nodup → ∀ t : Finset α, t ⊆ l.toFinset →
      ∃ s ∈ powerSet l, s.toFinset = t := by
  intro l
  induction l with
  | nil =>
      intro _ t ht
      refine ⟨[], by rw [powerSet_nil]; exact List.mem_singleton_self _, ?_⟩
      simp only [List.toFinset_nil]
      symm
      rwa [← Finset.subset_empty, ← List.toFinset_nil]
  | cons a l ih =>
      intro hl t ht
      obtain ⟨hal, hl2⟩ := List.nodup_cons.mp hl
      by_cases hat : a ∈ t
      · have hsub : t.erase a ⊆ l.toFinset := by
          intro x hx
          obtain ⟨hxa, hxt⟩ := Finset.mem_erase.mp hx
          have := ht hxt
          simp only [List.toFinset_cons, Finset.mem_insert] at this
          rcases this with rfl | hmem
          · exact absurd rfl hxa
          · exact hmem
        obtain ⟨s, hs, hfs⟩ := ih hl2 (t.erase a) hsub
        refine ⟨a :: s, ?_, ?_⟩
        · rw [powerSet_cons]
          simp only [List.mem_flatMap]
          exact ⟨s, hs, by simp⟩
        · rw [List.toFinset_cons, hfs, Finset.insert_erase hat]
      · have hsub : t ⊆ l.toFinset := by
          intro x hx
          have := ht hx
          simp only [List.toFinset_cons, Finset.mem_insert] at this
          rcases this with rfl | hmem
          · exact absurd hx hat
          · exact hmem
        obtain ⟨s, hs, hfs⟩ := ih hl2 t hsub
        refine ⟨s, ?_, hfs⟩
        rw [powerSet_cons]
        simp only [List.mem_flatMap]
        exact ⟨s, hs, by simp⟩

/-- Membership characterization: a finset appears among the enumerated
subsets exactly when it is a subset of the input. -/
theorem mem_powerSet_map_toFinset_iff {α : Type _} [DecidableEq α] {l : List α}
    (hl : l.Nodup) (t : Finset α) :
    t ∈ (powerSet l).map List.toFinset ↔ t ⊆ l.toFinset := by
  constructor
  · intro htm
    obtain ⟨s, hs, rfl⟩ := List.mem_map.mp htm
    intro x hx
    exact List.mem_toFinset.mpr
      (mem_of_mem_of_mem_powerSet hs x (List.mem_toFinset.mp hx))
  · intro hsub
    obtain ⟨s, hs, hfs⟩ := powerSet_complete hl t hsub
    exact List.mem_map.mpr ⟨s, hs, hfs⟩

/-- Summing a finset-valued function over the enumerated subsets equals the
`Finset.powerset` sum, for a duplicate-free input. -/
theorem sum_powerSet_map_toFinset {α : Type _} [DecidableEq α] {l : List α}
    (hl : l.Nodup) (G : Finset α → ℚ) :
    ((powerSet l).map (fun s => G s.toFinset)).sum =
      ∑ t ∈ l.toFinset.powerset, G t := by
  have h1 : (powerSet l).map (fun s => G s.toFinset) =
      ((powerSet l).map List.toFinset).map G := by
    rw [List.map_map]
    rfl
  have hnd := nodup_powerSet_map_toFinset hl
  have h2 : ((powerSet l).map List.toFinset).toFinset = l.toFinset.powerset := by
    ext t
    rw [List.mem_toFinset, mem_powerSet_map_toFinset_iff hl, Finset.mem_powerset]
  rw [h1, ← List.sum_toFinset G hnd, h2]

/-- The `factorial` of the source agrees with the mathematical factorial. -/
theorem factorial_eq_natFactorial : ∀ n : ℕ, factorial n = n.factorial
  | 0 => rfl
  | 1 => rfl
  | n + 2 => by
      rw [factorial, factorial_eq_natFactorial (n + 1)]
      rw [Nat.factorial_succ (n + 1)]

/-! ### Closed form of the per-component computation -/

/-- The filtered list of other components, as a finset, is the active set
minus the component under evaluation. -/
theorem filter_ne_toFinset (component : ComponentId) (l : List ComponentId) :
    (l.filter (fun c => c ≠ component)).toFinset = l.toFinset.erase component := by
  ext x
  simp only [List.mem_toFinset, List.mem_filter, Finset.mem_erase,
    decide_eq_true_eq]
  tauto

/-- `computeShapleyForComponent` equals the closed-form Shapley sum over the
powerset of the remaining components. -/
theorem computeShapleyForComponent_eq_sum (component : ComponentId)
    (l : List ComponentId) (v : ValueFunction) (hl : l.Nodup) :
    computeShapleyForComponent component l v =
      ∑ S ∈ (l.toFinset.erase component).powerset,
        ((S.card.factorial * (l.length - S.card - 1).factorial : ℕ) : ℚ)
            / ((l.length.factorial : ℕ) : ℚ)
          * (v (insert component S) - v S) := by
  have hnd : (l.filter (fun c => c ≠ component)).Nodup := hl.filter _
  have hcongr :
      (powerSet (l.filter (fun c => c ≠ component))).map (fun subset =>
        ((factorial subset.length * factorial (l.length - subset.length - 1) : ℕ) : ℚ)
            / ((factorial l.length : ℕ) : ℚ)
          * (v (insert component subset.toFinset) - v subset.toFinset)) =
      (powerSet (l.filter (fun c => c ≠ component))).map (fun subset =>
        ((subset.toFinset.card.factorial
              * (l.length - subset.toFinset.card - 1).factorial : ℕ) : ℚ)
            / ((l.length.factorial : ℕ) : ℚ)
          * (v (insert component subset.toFinset) - v subset.toFinset)) := by
    refine List.map_eq_map_iff.mpr ?_
    intro s hs
    have hsnd : s.Nodup := nodup_of_mem_powerSet hnd s hs
    rw [List.toFinset_card_of_nodup hsnd, factorial_eq_natFactorial,
      factorial_eq_natFactorial, factorial_eq_natFactorial]
  show ((powerSet (l.filter (fun c => c ≠ component))).map (fun subset =>
      ((factorial subset.length * factorial (l.length - subset.length - 1) : ℕ) : ℚ)
          / ((factorial l.length : ℕ) : ℚ)
        * (v (insert component subset.toFinset) - v subset.toFinset))).sum = _
  rw [hcongr,
    sum_powerSet_map_toFinset hnd (fun t =>
      ((t.card.factorial * (l.length - t.card - 1).factorial : ℕ) : ℚ)
          / ((l.length.factorial : ℕ) : ℚ)
        * (v (insert component t) - v t)),
    filter_ne_toFinset]

/-! ### The efficiency identity -/

/-- Counting lemma: summing a constant over the members of `T` outside `S`. -/
theorem sum_ite_not_mem {α : Type _} [DecidableEq α] (T S : Finset α) (c : ℚ)
    (hsub : S ⊆ T) :
    (∑ i ∈ T, if i ∉ S then c else 0) = ((T.card - S.card : ℕ) : ℚ) * c := by
  rw [Finset.sum_ite, Finset.sum_const, Finset.sum_const_zero, add_zero,
    nsmul_eq_mul]
  congr 2
  rw [← Finset.sdiff_eq_filter, Finset.card_sdiff hsub]

/-- Counting lemma: summing a constant over the members of `T` inside `S`. -/
theorem sum_ite_mem_const {α : Type _} [DecidableEq α] (T S : Finset α) (c : ℚ)
    (hsub : S ⊆ T) :
    (∑ i ∈ T, if i ∈ S then c else 0) = (S.card : ℚ) * c := by
  rw [Finset.sum_ite, Finset.sum_const, Finset.sum_const_zero, add_zero,
    nsmul_eq_mul]
  congr 2
  rw [Finset.filter_mem_eq_inter, Finset.inter_eq_right.mpr hsub]

/-- Regrouping the double Shapley sum by coalition: for an arbitrary weight
function of the coalition size, the sum of weighted marginal contributions
collects, per coalition `U`, the coefficient
`|U| * W(|U| - 1) - (n - |U|) * W(|U|)`. -/
theorem shapley_sum_reduction {α : Type _} [DecidableEq α] (T : Finset α)
    (v : Finset α → ℚ) (W : ℕ → ℚ) :
    ∑ i ∈ T, ∑ S ∈ (T.erase i).powerset, W S.card * (v (insert i S) - v S)
      = ∑ U ∈ T.powerset,
          ((U.card : ℚ) * W (U.card - 1)
            - ((T.card - U.card : ℕ) : ℚ) * W U.card) * v U := by
  have hps : ∀ i : α, (T.erase i).powerset = T.powerset.filter (fun S => i ∉ S) := by
    intro i
    ext S
    simp only [Finset.mem_powerset, Finset.mem_filter, Finset.subset_erase]
  have expand : ∀ i ∈ T,
      (∑ S ∈ (T.erase i).powerset, W S.card * (v (insert i S) - v S))
        = (∑ S ∈ T.powerset, if i ∉ S then W S.card * v (insert i S) else 0)
          - (∑ S ∈ T.powerset, if i ∉ S then W S.card * v S else 0) := by
    intro i _
    rw [hps i, Finset.sum_filter, ← Finset.sum_sub_distrib]
    refine Finset.sum_congr rfl ?_
    intro S _
    split
    · ring
    · ring
  rw [Finset.sum_congr rfl expand, Finset.sum_sub_distrib]
  have partA : ∑ i ∈ T, ∑ S ∈ T.powerset, (if i ∉ S then W S.card * v (insert i S) else 0)
      = ∑ U ∈ T.powerset, (U.card : ℚ) * (W (U.card - 1) * v U) := by
    have inner : ∀ i ∈ T,
        (∑ S ∈ T.powerset, if i ∉ S then W S.card * v (insert i S) else 0)
          = ∑ U ∈ T.powerset, (if i ∈ U then W (U.card - 1) * v U else 0) := by
      intro i hi
      rw [← Finset.sum_filter, ← Finset.sum_filter]
      refine Finset.sum_nbij' (fun S => insert i S) (fun U => U.erase i)
        ?_ ?_ ?_ ?_ ?_
      · intro S hS
        obtain ⟨hS1, hS2⟩ := Finset.mem_filter.mp hS
        exact Finset.mem_filter.mpr
          ⟨Finset.mem_powerset.mpr
            (Finset.insert_subset hi (Finset.mem_powerset.mp hS1)),
            Finset.mem_insert_self i S⟩
      · intro U hU
        obtain ⟨hU1, _⟩ := Finset.mem_filter.mp hU
        exact Finset.mem_filter.mpr
          ⟨Finset.mem_powerset.mpr
            ((Finset.erase_subset i U).trans (Finset.mem_powerset.mp hU1)),
            Finset.not_mem_erase i U⟩
      · intro S hS
        exact Finset.erase_insert (Finset.mem_filter.mp hS).2
      · intro U hU
        exact Finset.insert_erase (Finset.mem_filter.mp hU).2
      · intro S hS
        have hnot : i ∉ S := (Finset.mem_filter.mp hS).2
        rw [Finset.card_insert_of_not_mem hnot]
        simp
    rw [Finset.sum_congr rfl inner, Finset.sum_comm]
    refine Finset.sum_congr rfl ?_
    intro U hU
    exact sum_ite_mem_const T U _ (Finset.mem_powerset.mp hU)
  have partB : ∑ i ∈ T, ∑ S ∈ T.powerset, (if i ∉ S then W S.card * v S else 0)
      = ∑ S ∈ T.powerset, ((T.card - S.card : ℕ) : ℚ) * (W S.card * v S) := by
    rw [Finset.sum_comm]
    refine Finset.sum_congr rfl ?_
    intro S hS
    exact sum_ite_not_mem T S _ (Finset.mem_powerset.mp hS)
  rw [partA, partB, ← Finset.sum_sub_distrib]
  refine Finset.sum_congr rfl ?_
  intro U _
  ring

/-- Evaluation of the per-coalition coefficient of the regrouped sum: it is
`-1` at the empty coalition, `1` at the grand coalition, and `0` in between. -/
theorem shapley_coeff_eval (n u : ℕ) (hn : 1 ≤ n) (hun : u ≤ n) :
    (u : ℚ) * ((((u - 1).factorial * (n - (u - 1) - 1).factorial : ℕ) : ℚ)
          / ((n.factorial : ℕ) : ℚ))
      - ((n - u : ℕ) : ℚ) * (((u.factorial * (n - u - 1).factorial : ℕ) : ℚ)
          / ((n.factorial : ℕ) : ℚ))
      = if u = 0 then -1 else if u = n then 1 else 0 := by
  obtain ⟨m, rfl⟩ : ∃ m, n = m + 1 := ⟨n - 1, by omega⟩
  rcases Nat.eq_zero_or_pos u with rfl | hu
  · have e1 : m + 1 - 0 = m + 1 := rfl
    have e2 : m + 1 - 0 - 1 = m := rfl
    simp only [if_pos rfl, Nat.cast_zero, zero_mul, zero_sub, e1, e2,
      Nat.factorial_zero, one_mul]
    have hm : ((m + 1).factorial : ℚ) ≠ 0 := by positivity
    rw [Nat.factorial_succ]
    push_cast
    field_simp
  · by_cases hue : u = m + 1
    · subst hue
      have e1 : m + 1 - (m + 1) = 0 := by omega
      have e2 : m + 1 - (m + 1 - 1) - 1 = 0 := by omega
      have e3 : m + 1 - 1 = m := rfl
      have hne : m + 1 ≠ 0 := by omega
      simp only [e1, e2, e3, if_neg hne, if_pos rfl, Nat.cast_zero, zero_mul,
        sub_zero, Nat.factorial_zero, mul_one]
      have hm : ((m + 1).factorial : ℚ) ≠ 0 := by positivity
      rw [Nat.factorial_succ]
      push_cast
      field_simp
    · have hult : u < m + 1 := by omega
      obtain ⟨k, rfl⟩ : ∃ k, u = k + 1 := ⟨u - 1, by omega⟩
      obtain ⟨p, hp⟩ : ∃ p, m = k + p + 1 := ⟨m - k - 1, by omega⟩
      subst hp
      have e1 : k + 1 - 1 = k := rfl
      have e2 : k + p + 1 + 1 - k - 1 = p + 1 := by omega
      have e3 : k + p + 1 + 1 - (k + 1) = p + 1 := by omega
      have e4 : k + p + 1 + 1 - (k + 1) - 1 = p := by omega
      have hne0 : k + 1 ≠ 0 := by omega
      have hnen : k + 1 ≠ k + p + 1 + 1 := by omega
      rw [e1, e2, e4, e3, if_neg hne0, if_neg hnen, ← mul_div_assoc,
        ← mul_div_assoc, ← sub_div]
      have hnum : ((k + 1 : ℕ) : ℚ) * ((k.factorial * (p + 1).factorial : ℕ) : ℚ)
          - ((p + 1 : ℕ) : ℚ) * (((k + 1).factorial * p.factorial : ℕ) : ℚ) = 0 := by
        push_cast [Nat.factorial_succ]
        ring
      rw [hnum, zero_div]

/-- Efficiency identity over finsets: the total of all per-component
weighted-marginal sums telescopes to `v(T) - v(∅)`. -/
theorem sum_shapley_closed_form {α : Type _} [DecidableEq α] (T : Finset α)
    (v : Finset α → ℚ) :
    ∑ i ∈ T, ∑ S ∈ (T.erase i).powerset,
        ((S.card.factorial * (T.card - S.card - 1).factorial : ℕ) : ℚ)
            / ((T.card.factorial : ℕ) : ℚ)
          * (v (insert i S) - v S)
      = v T - v ∅ := by
  rcases T.eq_empty_or_nonempty with rfl | hT
  · simp
  have hn : 1 ≤ T.card := Finset.card_pos.mpr hT
  have hred := shapley_sum_reduction T v (fun s =>
    ((s.factorial * (T.card - s - 1).factorial : ℕ) : ℚ)
      / ((T.card.factorial : ℕ) : ℚ))
  calc ∑ i ∈ T, ∑ S ∈ (T.erase i).powerset,
        ((S.card.factorial * (T.card - S.card - 1).factorial : ℕ) : ℚ)
            / ((T.card.factorial : ℕ) : ℚ)
          * (v (insert i S) - v S)
      = ∑ U ∈ T.powerset,
          ((U.card : ℚ) * ((((U.card - 1).factorial
                * (T.card - (U.card - 1) - 1).factorial : ℕ) : ℚ)
              / ((T.card.factorial : ℕ) : ℚ))
            - ((T.card - U.card : ℕ) : ℚ) * (((U.card.factorial
                * (T.card - U.card - 1).factorial : ℕ) : ℚ)
              / ((T.card.factorial : ℕ) : ℚ))) * v U := by
        rw [← hred]
    _ = ∑ U ∈ T.powerset,
          (if U = ∅ then -v ∅ else if U = T then v T else 0) := by
        refine Finset.sum_congr rfl ?_
        intro U hU
        have hsub : U ⊆ T := Finset.mem_powerset.mp hU
        have hcard : U.card ≤ T.card := Finset.card_le_card hsub
        rw [shapley_coeff_eval T.card U.card hn hcard]
        by_cases h0 : U = ∅
        · subst h0
          simp
        · have hc0 : U.card ≠ 0 := fun h => h0 (Finset.card_eq_zero.mp h)
          by_cases hUT : U = T
          · subst hUT
            simp [hc0, h0]
          · have hlt : U.card ≠ T.card := by
              intro h
              exact hUT (Finset.eq_of_subset_of_card_le hsub (le_of_eq h.symm))
            simp [hc0, hlt, h0, hUT]
    _ = ∑ U ∈ T.powerset, ((if U = ∅ then -v ∅ else 0)
          + (if U = T then v T else 0)) := by
        refine Finset.sum_congr rfl ?_
        intro U _
        by_cases h0 : U = ∅
        · subst h0
          have : (∅ : Finset α) ≠ T := fun h => hT.ne_empty h.symm
          simp [this]
        · by_cases hUT : U = T
          · subst hUT
            simp [h0]
          · simp [h0, hUT]
    _ = v T - v ∅ := by
        rw [Finset.sum_add_distrib, Finset.sum_ite_eq' T.powerset ∅ (fun _ => -v ∅),
          Finset.sum_ite_eq' T.powerset T (fun _ => v T)]
        simp [Finset.empty_mem_powerset, Finset.mem_powerset_self]
        ring

/-! ### Structure of the aggregated result -/

/-- The record-update loop: after overwriting the entry of every listed
component with `g`, an entry holds `g c` when `c` was listed and its initial
value otherwise. -/
theorem foldl_update_apply (g : ComponentId → ℚ) :
    ∀ (l : List ComponentId) (init : ComponentId → ℚ) (c : ComponentId),
      (l.foldl (fun acc x => Function.update acc x (g x)) init) c
        = if c ∈ l then g c else init c := by
  intro l
  induction l with
  | nil =>
      intro init c
      simp
  | cons a l ih =>
      intro init c
      rw [List.foldl_cons, ih]
      by_cases hc : c ∈ l
      · simp [hc]
      · by_cases hca : c = a
        · subst hca
          simp [hc, Function.update]
        · simp [hc, hca, Function.update]

/-- The summation loop for individual effects is the sum of the mapped list. -/
theorem foldl_add_eq (f : ComponentId → ℚ) :
    ∀ (l : List ComponentId) (a : ℚ),
      l.foldl (fun sum c => sum + f c) a = a + (l.map f).sum := by
  intro l
  induction l with
  | nil =>
      intro a
      simp
  | cons b l ih =>
      intro a
      simp [ih, add_assoc]

/-- Entries of the `values` record: the Shapley value for listed components,
`0` (the initialization) for the rest. -/
theorem computeShapleyValues_values (activeComponents : List ComponentId)
    (v : ValueFunction) (c : ComponentId) :
    (computeShapleyValues activeComponents v).values c
      = if c ∈ activeComponents
          then computeShapleyForComponent c activeComponents v
          else 0 := by
  simp only [computeShapleyValues]
  rw [foldl_update_apply (fun x => computeShapleyForComponent x activeComponents v)
    activeComponents (fun _ => 0) c]

/-- The `totalValue` field is the value of the grand coalition. -/
theorem computeShapleyValues_totalValue (activeComponents : List ComponentId)
    (v : ValueFunction) :
    (computeShapleyValues activeComponents v).totalValue
      = v activeComponents.toFinset := rfl

/-- The `interactionValue` field is the total minus the sum of singleton
values. -/
theorem computeShapleyValues_interactionValue (activeComponents : List ComponentId)
    (v : ValueFunction) :
    (computeShapleyValues activeComponents v).interactionValue
      = v activeComponents.toFinset
        - (activeComponents.map (fun c => v {c})).sum := by
  show v activeComponents.toFinset
      - activeComponents.foldl (fun sum comp => sum + v {comp}) 0 = _
  rw [foldl_add_eq (fun c => v {c}) activeComponents 0, zero_add]

/-- Expansion of a sum over the whole component universe. -/
theorem sum_univ_componentId (f : ComponentId → ℚ) :
    ∑ c : ComponentId, f c
      = f .robotEngagement + f .adaptiveDifficulty
        + f .caregiverInvolvement + f .gameScaffolding := by
  show (Finset.univ : Finset ComponentId).sum f = _
  rw [show (Finset.univ : Finset ComponentId)
      = {.robotEngagement, .adaptiveDifficulty, .caregiverInvolvement,
          .gameScaffolding} from by decide]
  rw [Finset.sum_insert (by decide), Finset.sum_insert (by decide),
    Finset.sum_insert (by decide), Finset.sum_singleton]
  ring

/-- The sum of all entries of the `values` record is the sum of the Shapley
values of the active components (for a duplicate-free active list). -/
theorem sum_values_eq (activeComponents : List ComponentId) (v : ValueFunction) :
    ∑ c : ComponentId, (computeShapleyValues activeComponents v).values c
      = ∑ c ∈ activeComponents.toFinset,
          computeShapleyForComponent c activeComponents v := by
  have h1 : ∀ c : ComponentId,
      (computeShapleyValues activeComponents v).values c
        = if c ∈ activeComponents.toFinset
            then computeShapleyForComponent c activeComponents v
            else 0 := by
    intro c
    rw [computeShapleyValues_values]
    by_cases hc : c ∈ activeComponents
    · rw [if_pos hc, if_pos (List.mem_toFinset.mpr hc)]
    · rw [if_neg hc, if_neg (fun h => hc (List.mem_toFinset.mp h))]
  calc ∑ c : ComponentId, (computeShapleyValues activeComponents v).values c
      = ∑ c : ComponentId, if c ∈ activeComponents.toFinset
          then computeShapleyForComponent c activeComponents v else 0 := by
        exact Finset.sum_congr rfl (fun c _ => h1 c)
    _ = ∑ c ∈ activeComponents.toFinset,
          computeShapleyForComponent c activeComponents v := by
        rw [Finset.sum_ite_mem, Finset.univ_inter]

/-- For a duplicate-free active list, the entries of the `values` record sum
to `v(N) - v(∅)` exactly, where `N` is the grand coalition. -/
theorem sum_values_totalValue (l : List ComponentId) (v : ValueFunction)
    (hl : l.Nodup) :
    ∑ c : ComponentId, (computeShapleyValues l v).values c
      = v l.toFinset - v ∅ := by
  rw [sum_values_eq]
  have hcard : l.toFinset.card = l.length := List.toFinset_card_of_nodup hl
  calc ∑ c ∈ l.toFinset, computeShapleyForComponent c l v
      = ∑ i ∈ l.toFinset, ∑ S ∈ (l.toFinset.erase i).powerset,
          ((S.card.factorial * (l.toFinset.card - S.card - 1).factorial : ℕ) : ℚ)
              / ((l.toFinset.card.factorial : ℕ) : ℚ)
            * (v (insert i S) - v S) := by
        refine Finset.sum_congr rfl ?_
        intro i _
        rw [hcard, computeShapleyForComponent_eq_sum i l v hl]
    _ = v l.toFinset - v ∅ := sum_shapley_closed_form l.toFinset v

/-! ### The instrumented trace -/

/-- A fold that accumulates a sum in the first component and an append log in
the second splits into the mapped sum and the flat-mapped log. -/
theorem foldl_pair {α : Type _} (xs : List α) (f : α → ℚ)
    (g : α → List Coalition) :
    ∀ (a : ℚ) (b : List Coalition),
      xs.foldl (fun acc x => (acc.1 + f x, acc.2 ++ g x)) (a, b)
        = (a + (xs.map f).sum, b ++ xs.flatMap g) := by
  induction xs with
  | nil =>
      intro a b
      simp
  | cons x xs ih =>
      intro a b
      simp [ih, add_assoc]

/-- The instrumented computation returns the Shapley value of the source
computation paired with the log of all coalitions passed to the value
function: per enumerated subset, first the subset extended by the component,
then the subset itself. -/
theorem computeShapleyForComponentTrace_pair (component : ComponentId)
    (l : List ComponentId) (v : ValueFunction) :
    computeShapleyForComponentTrace component l v
      = (computeShapleyForComponent component l v,
          (powerSet (l.filter (fun c => c ≠ component))).flatMap (fun subset =>
            [insert component subset.toFinset, subset.toFinset])) := by
  have h := foldl_pair (powerSet (l.filter (fun c => c ≠ component)))
    (fun subset =>
      ((factorial subset.length * factorial (l.length - subset.length - 1) : ℕ) : ℚ)
          / ((factorial l.length : ℕ) : ℚ)
        * (v (insert component subset.toFinset) - v subset.toFinset))
    (fun subset => [insert component subset.toFinset, subset.toFinset]) 0 []
  rw [zero_add, List.nil_append] at h
  exact h

/-- Flat-mapping a two-element block over a list doubles its length. -/
theorem length_flatMap_pair {α β : Type _} (L : List α) (f g : α → β) :
    (L.flatMap (fun x => [f x, g x])).length = 2 * L.length := by
  induction L with
  | nil => rfl
  | cons x L ih =>
      simp only [List.flatMap_cons, List.length_append, List.length_cons, ih]
      simp
      ring

/-- Filtering out a listed member of a duplicate-free list shortens it by
exactly one. -/
theorem length_filter_ne (component : ComponentId) :
    ∀ l : List ComponentId, l.Nodup → component ∈ l →
      (l.filter (fun c => c ≠ component)).length = l.length - 1 := by
  intro l
  induction l with
  | nil =>
      intro _ hmem
      cases hmem
  | cons a l ih =>
      intro hl hmem
      obtain ⟨hal, hl2⟩ := List.nodup_cons.mp hl
      rcases List.mem_cons.mp hmem with rfl | hmem2
      · have hfil : l.filter (fun c => c ≠ component) = l := by
          refine List.filter_eq_self.mpr ?_
          intro x hx
          have hxc : x ≠ component := fun h => hal (h ▸ hx)
          simpa using hxc
        have hhead : (component :: l).filter (fun c => c ≠ component)
            = l.filter (fun c => c ≠ component) := by
          rw [List.filter_cons, if_neg (by simp)]
        rw [hhead, hfil, List.length_cons]
        omega
      · have hne : a ≠ component := fun h => hal (h ▸ hmem2)
        have hrec := ih hl2 hmem2
        have hpos : 0 < l.length := List.length_pos.mpr (List.ne_nil_of_mem hmem2)
        have hfc : (a :: l).filter (fun c => c ≠ component)
            = a :: l.filter (fun c => c ≠ component) := by
          rw [List.filter_cons, if_pos (by simpa using hne)]
        rw [hfc, List.length_cons, hrec, List.length_cons]
        omega

/-! ### Concrete value functions used as inputs below -/

/-- A value function counting the members of the coalition (so the empty
coalition has value `0`). -/
def vCard : ValueFunction := fun S => (S.card : ℚ)

/-- A value function with a nonzero value at the empty coalition. -/
def vShift : ValueFunction := fun S =>
  if ComponentId.robotEngagement ∈ S then 2 else 1

/-! ### Claims -/

/-- C1, counterexample to the claim as stated: for the distinct active list
`[robotEngagement]` and the value function `vShift` (which gives the empty
coalition value `1`), the per-component values of `computeShapleyValues` sum
to `1` while `totalValue` is `2`, so the efficiency equation fails the
`1e-10` tolerance.  The engine computes `v(N) - v(∅)`, not `v(N)`, when
`v(∅) ≠ 0`. -/
theorem C1_efficiency_counterexample :
    ¬ (|(∑ c : ComponentId,
          (computeShapleyValues [ComponentId.robotEngagement] vShift).values c)
        - (computeShapleyValues [ComponentId.robotEngagement] vShift).totalValue|
      < (1e-10 : ℚ)) := by
  rw [sum_values_totalValue _ _ (by decide), computeShapleyValues_totalValue]
  have h1 : ([ComponentId.robotEngagement] : List ComponentId).toFinset
      = {ComponentId.robotEngagement} := rfl
  have h2 : vShift ({ComponentId.robotEngagement} : Coalition) = 2 := by
    simp [vShift]
  have h3 : vShift (∅ : Coalition) = 1 := by
    simp [vShift]
  rw [h1, h2, h3]
  norm_num

/-- C1 (amended): for every value function `v` with `v(∅) = 0` and every
duplicate-free active component list, the sum over all components of the
per-component values in the result of `computeShapleyValues` equals the
result's `totalValue` within absolute tolerance `1e-10` (in fact exactly). -/
theorem C1_efficiency_axiom (l : List ComponentId) (v : ValueFunction)
    (hl : l.Nodup) (h0 : v ∅ = 0) :
    |(∑ c : ComponentId, (computeShapleyValues l v).values c)
        - (computeShapleyValues l v).totalValue| < (1e-10 : ℚ) := by
  rw [sum_values_totalValue l v hl, computeShapleyValues_totalValue, h0,
    sub_zero, sub_self]
  norm_num

/-- Witness for C1 at the concrete input `[robotEngagement, adaptiveDifficulty]`
with the member-counting value function. -/
theorem C1_efficiency_axiom_witness :
    ([ComponentId.robotEngagement, ComponentId.adaptiveDifficulty] : List ComponentId).Nodup
      ∧ vCard ∅ = 0
      ∧ |(∑ c : ComponentId,
            (computeShapleyValues
              [ComponentId.robotEngagement, ComponentId.adaptiveDifficulty] vCard).values c)
          - (computeShapleyValues
              [ComponentId.robotEngagement, ComponentId.adaptiveDifficulty] vCard).totalValue|
        < (1e-10 : ℚ) :=
  ⟨by decide, by simp [vCard],
    C1_efficiency_axiom [ComponentId.robotEngagement, ComponentId.adaptiveDifficulty]
      vCard (by decide) (by simp [vCard])⟩

/-- C2: for every component of a duplicate-free component list and every
value function, `computeShapleyForComponent` returns the closed-form Shapley
value: the sum over all subsets `S` of the other components of
`|S|! * (n - |S| - 1)! / n! * (v(S ∪ {i}) - v(S))`. -/
theorem C2_per_component_closed_form (component : ComponentId)
    (l : List ComponentId) (v : ValueFunction) (hl : l.Nodup)
    (_hmem : component ∈ l) :
    computeShapleyForComponent component l v
      = ∑ S ∈ (l.toFinset.erase component).powerset,
          ((S.card.factorial * (l.length - S.card - 1).factorial : ℕ) : ℚ)
              / ((l.length.factorial : ℕ) : ℚ)
            * (v (insert component S) - v S) :=
  computeShapleyForComponent_eq_sum component l v hl

/-- Witness for C2 at `robotEngagement` in the two-component list with the
member-counting value function. -/
theorem C2_per_component_closed_form_witness :
    ([ComponentId.robotEngagement, ComponentId.adaptiveDifficulty] : List ComponentId).Nodup
      ∧ ComponentId.robotEngagement
          ∈ [ComponentId.robotEngagement, ComponentId.adaptiveDifficulty]
      ∧ computeShapleyForComponent ComponentId.robotEngagement
          [ComponentId.robotEngagement, ComponentId.adaptiveDifficulty] vCard
        = ∑ S ∈ (([ComponentId.robotEngagement, ComponentId.adaptiveDifficulty] :
              List ComponentId).toFinset.erase ComponentId.robotEngagement).powerset,
            ((S.card.factorial
                  * ([ComponentId.robotEngagement,
                      ComponentId.adaptiveDifficulty].length - S.card - 1).factorial : ℕ) : ℚ)
                / (([ComponentId.robotEngagement,
                    ComponentId.adaptiveDifficulty].length.factorial : ℕ) : ℚ)
              * (vCard (insert ComponentId.robotEngagement S) - vCard S) :=
  ⟨by decide, by decide,
    C2_per_component_closed_form ComponentId.robotEngagement
      [ComponentId.robotEngagement, ComponentId.adaptiveDifficulty] vCard
      (by decide) (by decide)⟩

/-- C3: for every duplicate-free input list of `k` elements, the `powerSet`
enumeration yields exactly `2 ^ k` subsets (it is a finite list, so the
enumeration terminates), with no duplicate subset, and a finset appears among
the yielded subsets exactly when it is a subset of the input — in particular
the empty subset and the full set each appear exactly once. -/
theorem C3_enumeration_completeness {α : Type _} [DecidableEq α] (l : List α)
    (hl : l.Nodup) :
    (powerSet l).length = 2 ^ l.length
      ∧ ((powerSet l).map List.toFinset).Nodup
      ∧ ∀ t : Finset α, t ∈ (powerSet l).map List.toFinset ↔ t ⊆ l.toFinset :=
  ⟨powerSet_length l, nodup_powerSet_map_toFinset hl,
    fun t => mem_powerSet_map_toFinset_iff hl t⟩

/-- Witness for C3 at the concrete three-element input `[0, 1, 2]`. -/
theorem C3_enumeration_completeness_witness :
    ([0, 1, 2] : List ℕ).Nodup
      ∧ ((powerSet ([0, 1, 2] : List ℕ)).length = 2 ^ ([0, 1, 2] : List ℕ).length
        ∧ ((powerSet ([0, 1, 2] : List ℕ)).map List.toFinset).Nodup
        ∧ ∀ t : Finset ℕ, t ∈ (powerSet ([0, 1, 2] : List ℕ)).map List.toFinset
            ↔ t ⊆ ([0, 1, 2] : List ℕ).toFinset) :=
  ⟨by decide, C3_enumeration_completeness [0, 1, 2] (by decide)⟩

/-- C4: for every duplicate-free active component list and every value
function, the result has `totalValue = v(grandCoalition)` and
`interactionValue = totalValue - Σ v({c})` over the active components. -/
theorem C4_aggregation (l : List ComponentId) (v : ValueFunction)
    (_hl : l.Nodup) :
    (computeShapleyValues l v).totalValue = v l.toFinset
      ∧ (computeShapleyValues l v).interactionValue
          = (computeShapleyValues l v).totalValue
            - (l.map (fun c => v {c})).sum := by
  refine ⟨rfl, ?_⟩
  rw [computeShapleyValues_interactionValue, computeShapleyValues_totalValue]

/-- Witness for C4 at the two-component list with the member-counting value
function. -/
theorem C4_aggregation_witness :
    ([ComponentId.robotEngagement, ComponentId.adaptiveDifficulty] : List ComponentId).Nodup
      ∧ ((computeShapleyValues
            [ComponentId.robotEngagement, ComponentId.adaptiveDifficulty] vCard).totalValue
          = vCard ([ComponentId.robotEngagement,
              ComponentId.adaptiveDifficulty] : List ComponentId).toFinset
        ∧ (computeShapleyValues
            [ComponentId.robotEngagement, ComponentId.adaptiveDifficulty] vCard).interactionValue
          = (computeShapleyValues
              [ComponentId.robotEngagement, ComponentId.adaptiveDifficulty] vCard).totalValue
            - ([ComponentId.robotEngagement, ComponentId.adaptiveDifficulty].map
                (fun c => vCard {c})).sum) :=
  ⟨by decide,
    C4_aggregation [ComponentId.robotEngagement, ComponentId.adaptiveDifficulty]
      vCard (by decide)⟩

/-- C5: every component of the universe that is not in the (duplicate-free)
active list reports value exactly `0` in the `values` record. -/
theorem C5_inactive_components_zero (l : List ComponentId) (v : ValueFunction)
    (_hl : l.Nodup) (c : ComponentId) (hc : c ∉ l) :
    (computeShapleyValues l v).values c = 0 := by
  rw [computeShapleyValues_values, if_neg hc]

/-- Witness for C5: `adaptiveDifficulty` is inactive in `[robotEngagement]`
and reports `0`. -/
theorem C5_inactive_components_zero_witness :
    ([ComponentId.robotEngagement] : List ComponentId).Nodup
      ∧ ComponentId.adaptiveDifficulty ∉ ([ComponentId.robotEngagement] : List ComponentId)
      ∧ (computeShapleyValues [ComponentId.robotEngagement] vCard).values
          ComponentId.adaptiveDifficulty = 0 :=
  ⟨by decide, by decide,
    C5_inactive_components_zero [ComponentId.robotEngagement] vCard (by decide)
      ComponentId.adaptiveDifficulty (by decide)⟩

/-- C6: `verifyEfficiencyAxiom` is total (never throws, being a pure Boolean
function of the result) and returns `true` exactly when the sum of all
per-component values differs from `totalValue` by less than the absolute
tolerance `1e-10`. -/
theorem C6_verifier_contract (r : ShapleyResult) :
    verifyEfficiencyAxiom r = true
      ↔ |(∑ c : ComponentId, r.values c) - r.totalValue| < (1e-10 : ℚ) := by
  simp [verifyEfficiencyAxiom]

/-- C7: if a component's marginal contribution is zero for every coalition
not containing it, its computed Shapley value is exactly `0` (for any list of
distinct components). -/
theorem C7_null_player (component : ComponentId) (l : List ComponentId)
    (v : ValueFunction) (_hl : l.Nodup)
    (hnull : ∀ S : Coalition, component ∉ S → v (insert component S) = v S) :
    computeShapleyForComponent component l v = 0 := by
  simp only [computeShapleyForComponent]
  apply List.sum_eq_zero
  intro x hx
  obtain ⟨subset, hsub, rfl⟩ := List.mem_map.mp hx
  have hnotin : component ∉ subset.toFinset := by
    intro hmem
    have hmem2 := mem_of_mem_of_mem_powerSet hsub component
      (List.mem_toFinset.mp hmem)
    have := List.of_mem_filter hmem2
    simp at this
  rw [hnull subset.toFinset hnotin, sub_self, mul_zero]

/-- Witness for C7 with a constant value function, whose marginal
contributions all vanish. -/
theorem C7_null_player_witness :
    ([ComponentId.robotEngagement, ComponentId.adaptiveDifficulty] : List ComponentId).Nodup
      ∧ (∀ S : Coalition, ComponentId.robotEngagement ∉ S →
          (fun _ : Coalition => (7 : ℚ)) (insert ComponentId.robotEngagement S)
            = (fun _ : Coalition => (7 : ℚ)) S)
      ∧ computeShapleyForComponent ComponentId.robotEngagement
          [ComponentId.robotEngagement, ComponentId.adaptiveDifficulty]
          (fun _ : Coalition => (7 : ℚ)) = 0 :=
  ⟨by decide, fun _ _ => rfl,
    C7_null_player ComponentId.robotEngagement
      [ComponentId.robotEngagement, ComponentId.adaptiveDifficulty]
      (fun _ : Coalition => (7 : ℚ)) (by decide) (fun _ _ => rfl)⟩

/-- C8: for a single active component `c`, its computed Shapley value is
`v({c}) - v(∅)`; the single weight used, `weight(0, 1) = 0! * 0! / 1!`,
equals `1`. -/
theorem C8_singleton_case (c : ComponentId) (v : ValueFunction) :
    computeShapleyForComponent c [c] v = v {c} - v ∅
      ∧ ((factorial 0 * factorial (1 - 0 - 1) : ℕ) : ℚ)
          / ((factorial 1 : ℕ) : ℚ) = 1 := by
  constructor
  · have hfil : ([c] : List ComponentId).filter (fun x => x ≠ c) = [] := by
      simp
    simp only [computeShapleyForComponent, hfil, powerSet_nil, List.map_cons,
      List.map_nil, List.sum_cons, List.sum_nil, List.length_cons,
      List.length_nil, List.toFinset_nil]
    norm_num [factorial]
  · norm_num [factorial]

/-- C9, counterexample to the claim as stated: for the two distinct
components `[robotEngagement, adaptiveDifficulty]` and component
`robotEngagement`, the value function is invoked `4` times (as recorded by
the instrumented trace), not `2 ^ (n - 1) = 2` times. -/
theorem C9_invocation_count_counterexample :
    (computeShapleyForComponentTrace ComponentId.robotEngagement
        [ComponentId.robotEngagement, ComponentId.adaptiveDifficulty]
        (fun _ => 0)).2.length
      ≠ 2 ^ ([ComponentId.robotEngagement, ComponentId.adaptiveDifficulty].length - 1) := by
  rw [computeShapleyForComponentTrace_pair]
  decide

/-- C9 (amended): for every duplicate-free component list containing the
component, the value function is invoked exactly `2 * 2 ^ (n - 1) = 2 ^ n`
times — twice per enumerated subset of the other `n - 1` components (once
with the subset, once with the subset plus the component), with no
deduplication or caching. -/
theorem C9_invocation_count (component : ComponentId) (l : List ComponentId)
    (v : ValueFunction) (hl : l.Nodup) (hmem : component ∈ l) :
    (computeShapleyForComponentTrace component l v).2.length
      = 2 * 2 ^ (l.length - 1) := by
  rw [computeShapleyForComponentTrace_pair, length_flatMap_pair,
    powerSet_length, length_filter_ne component l hl hmem]

/-- Witness for C9 at the concrete two-component input. -/
theorem C9_invocation_count_witness :
    ([ComponentId.robotEngagement, ComponentId.adaptiveDifficulty] : List ComponentId).Nodup
      ∧ ComponentId.robotEngagement
          ∈ [ComponentId.robotEngagement, ComponentId.adaptiveDifficulty]
      ∧ (computeShapleyForComponentTrace ComponentId.robotEngagement
            [ComponentId.robotEngagement, ComponentId.adaptiveDifficulty] vCard).2.length
          = 2 * 2 ^ ([ComponentId.robotEngagement,
              ComponentId.adaptiveDifficulty].length - 1) :=
  ⟨by decide, by decide,
    C9_invocation_count ComponentId.robotEngagement
      [ComponentId.robotEngagement, ComponentId.adaptiveDifficulty] vCard
      (by decide) (by decide)⟩

/-- C10: on the empty active list the computation returns normally with every
per-component value `0`, `totalValue = v(∅)` and `interactionValue = v(∅)`. -/
theorem C10_empty_active_set (v : ValueFunction) :
    (∀ c : ComponentId, (computeShapleyValues [] v).values c = 0)
      ∧ (computeShapleyValues [] v).totalValue = v ∅
      ∧ (computeShapleyValues [] v).interactionValue = v ∅ := by
  refine ⟨fun c => ?_, rfl, ?_⟩
  · rw [computeShapleyValues_values]
    simp
  · rw [computeShapleyValues_interactionValue]
    simp

/-! ### Sanity check: the documented two-component scenario -/

/-- The documented two-component scenario: base effects `0.15` and `0.20`
with a pairwise interaction of `0.10`, so `v(∅) = 0`, `v({A}) = 0.15`,
`v({B}) = 0.20`, `v({A,B}) = 0.45`. -/
def vScenario : ValueFunction := fun S =>
  (if ComponentId.robotEngagement ∈ S then (3 : ℚ)/20 else 0)
    + (if ComponentId.adaptiveDifficulty ∈ S then (1 : ℚ)/5 else 0)
    + (if ComponentId.robotEngagement ∈ S ∧ ComponentId.adaptiveDifficulty ∈ S
        then (1 : ℚ)/10 else 0)

/-- The engine reproduces the documented attribution of the two-component
scenario: `Shapley(A) = 0.20` and `Shapley(B) = 0.25`, summing to
`v({A,B}) = 0.45`. -/
theorem scenario_two_components :
    computeShapleyForComponent ComponentId.robotEngagement
        [ComponentId.robotEngagement, ComponentId.adaptiveDifficulty] vScenario = 1/5
      ∧ computeShapleyForComponent ComponentId.adaptiveDifficulty
        [ComponentId.robotEngagement, ComponentId.adaptiveDifficulty] vScenario = 1/4 := by
  constructor
  · have h : powerSet ([ComponentId.robotEngagement, ComponentId.adaptiveDifficulty].filter
        (fun c => c ≠ ComponentId.robotEngagement)) = [[], [ComponentId.adaptiveDifficulty]] := by
      decide
    simp only [computeShapleyForComponent, h, List.map_cons, List.map_nil,
      List.sum_cons, List.sum_nil, List.length_cons, List.length_nil,
      List.toFinset_cons, List.toFinset_nil]
    norm_num [vScenario, factorial,
      show (ComponentId.adaptiveDifficulty = ComponentId.robotEngagement) = False by simp,
      show (ComponentId.robotEngagement = ComponentId.adaptiveDifficulty) = False by simp]
  · have h : powerSet ([ComponentId.robotEngagement, ComponentId.adaptiveDifficulty].filter
        (fun c => c ≠ ComponentId.adaptiveDifficulty)) = [[], [ComponentId.robotEngagement]] := by
      decide
    simp only [computeShapleyForComponent, h, List.map_cons, List.map_nil,
      List.sum_cons, List.sum_nil, List.length_cons, List.length_nil,
      List.toFinset_cons, List.toFinset_nil]
    norm_num [vScenario, factorial,
      show (ComponentId.adaptiveDifficulty = ComponentId.robotEngagement) = False by simp,
      show (ComponentId.robotEngagement = ComponentId.adaptiveDifficulty) = False by simp]

end ShapleyHRI
